import Mathlib

/-!
Verification of the batched recursive (shift-reduce) tree encoder in
`recursive.py`.

The source program encodes bracketed token sequences bottom-up: a batched
stack machine (`Recursive_.forward` / `Recursive_.step`) pushes the embedding
of every ordinary token and, on each close bracket, pops two vectors and
replaces them with `op(left, right)`, where `op` is a pluggable combine
operator (`RNNOp` or `LSTMOp`).

Embedding conventions:
* torch float tensors of shape `[H]` become `List ℚ` (`Vec`);
* the batch `input` tensor of shape `[T, B]` is represented batch-major as
  `seqs : List (List Nat)` (one list of token ids per sequence); the column
  that the source reads at time `t` is recovered by `colAt`;
* `torch.long` stack pointers become `Int`; torch's negative-index wrap
  (`x[-1]` is the last element) is modelled by `wrapIdx`; an index that is
  out of range even after the wrap would raise in torch — it is unreachable
  under the well-formedness hypotheses of the theorems below, and the model
  returns a default there (`List.getD` / no-op `List.set`);
* `torch.sigmoid` and `torch.tanh` are real-valued transcendental scalar
  functions; they are abstracted as explicit function parameters `sg th`,
  so every definition stays executable;
* `nn.Dropout` is the identity in evaluation mode; all operator forwards are
  modelled in evaluation mode (the mode the correctness claims are about).
-/

namespace StackRNN

/-- A vector: the shallow embedding of a torch float tensor of shape `[H]`. -/
abbrev Vec := List ℚ

/-- Dot product of two lists of rationals. -/
def dot (u v : List ℚ) : ℚ := (List.zipWith (fun a b => a * b) u v).sum

/-- Shallow embedding of `nn.Linear`: output entry `j` is `dot W_j x + b_j`
(`y = x Wᵀ + b`). -/
def linear (W : List (List ℚ)) (b : List ℚ) (x : List ℚ) : List ℚ :=
  List.zipWith (fun w bj => dot w x + bj) W b

/-- Elementwise sum of two vectors. -/
def addv (u v : List ℚ) : List ℚ := List.zipWith (fun a b => a + b) u v

/-- Elementwise (Hadamard) product of two vectors. -/
def mulv (u v : List ℚ) : List ℚ := List.zipWith (fun a b => a * b) u v

/-- Shallow embedding of `Tensor.chunk(2, dim=-1)`: the first chunk has
`⌈len/2⌉` entries, the second the rest. -/
def chunk2 (v : List ℚ) : List ℚ × List ℚ :=
  ((v.take ((v.length + 1) / 2)), v.drop ((v.length + 1) / 2))

/-- Shallow embedding of `Tensor.chunk(4, dim=-1)`: each chunk has
`⌈len/4⌉` entries (the source only ever unpacks exactly four chunks, which
torch permits exactly when the length makes four non-empty chunks; the
theorems below only use it at lengths divisible by four). -/
def chunk4 (v : List ℚ) : List ℚ × List ℚ × List ℚ × List ℚ :=
  let n := (v.length + 3) / 4
  (v.take n, (v.drop n).take n, (v.drop (2 * n)).take n, (v.drop (3 * n)).take n)

/-- Parameters of `RNNOp`: the weights of its `nn.Linear(2*nhid, nhid)`. -/
structure RNNOp where
  weight : List (List ℚ)
  bias : List ℚ
deriving DecidableEq

/-- `RNNOp.forward` in evaluation mode (`nn.Dropout` is the identity there):
`tanh(Linear(cat(left, right)))`, with `tanh` abstracted as `th`. -/
def RNNOp.fwd (th : ℚ → ℚ) (m : RNNOp) (left right : Vec) : Vec :=
  (linear m.weight m.bias (left ++ right)).map th

/-- Parameters of `LSTMOp`: `hidden_size = nhid // 2` and the weights of its
`nn.Linear(nhid, 5 * (nhid // 2))`. -/
structure LSTMOp where
  hidden_size : Nat
  weight : List (List ℚ)
  bias : List ℚ
deriving DecidableEq

/-- `LSTMOp.forward`, translated line by line from the source, with
`sigmoid` and `tanh` abstracted as `sg` and `th`. -/
def LSTMOp.fwd (sg th : ℚ → ℚ) (m : LSTMOp) (left right : Vec) : Vec :=
  let lhc := chunk2 left
  let rhc := chunk2 right
  let h := lhc.1 ++ rhc.1
  let y := linear m.weight m.bias h
  let lin_gates := y.take (4 * m.hidden_size)
  let lin_in_c := y.drop (4 * m.hidden_size)
  let g := chunk4 (lin_gates.map sg)
  let in_c := lin_in_c.map th
  let c := addv (addv (mulv g.1 in_c) (mulv g.2.1 lhc.2)) (mulv g.2.2.1 rhc.2)
  let h2 := mulv g.2.2.2 (c.map th)
  h2 ++ c

/-- The gated combine as the specification words it: split each input into a
visible half and a memory half of `hidden_size` entries each; one affine
transform of the concatenated visible halves yields four gate
pre-activations and one candidate pre-activation; the new memory half is
`input-gate ⊙ candidate + left-forget ⊙ left-memory + right-forget ⊙
right-memory`; the new visible half is `output-gate ⊙ th(new memory)`; the
result is the concatenation visible-then-memory. -/
def LSTMOp.specCombine (sg th : ℚ → ℚ) (m : LSTMOp) (left right : Vec) : Vec :=
  let n := m.hidden_size
  let pre := linear m.weight m.bias (left.take n ++ right.take n)
  let iGate := (pre.take n).map sg
  let fL := ((pre.drop n).take n).map sg
  let fR := ((pre.drop (2 * n)).take n).map sg
  let oGate := ((pre.drop (3 * n)).take n).map sg
  let cand := ((pre.drop (4 * n)).take n).map th
  let newMem := addv (addv (mulv iGate cand) (mulv fL (left.drop n))) (mulv fR (right.drop n))
  let newVis := mulv oGate (newMem.map th)
  newVis ++ newMem

/-- `LSTMOp.__init__`: `assert(nhid % 2 == 0)` then `hidden_size = nhid // 2`.
A failed assertion is modelled as `none`. -/
def LSTMOp.mk? (nhid : Nat) (W : List (List ℚ)) (b : List ℚ) : Option LSTMOp :=
  if nhid % 2 = 0 then some ⟨nhid / 2, W, b⟩ else none

/-- Which combine-operator policy the encoder is constructed with. -/
inductive OpKind where
  | rnn : OpKind
  | lstm : OpKind
deriving DecidableEq

/-- The constructed encoder facade (`Recursive.__init__`): its configuration
scalars, embedding table, and combine operator. -/
structure RecursiveEnc where
  hidden_size : Nat
  padding_idx : Nat
  paren_open : Nat
  paren_close : Nat
  emb : Nat → Vec
  op : Vec → Vec → Vec

/-- `Recursive.__init__`: constructs the selected combine operator with the
given hidden size (for `LSTMOp` this runs its evenness assertion, so an odd
hidden size with the gated policy fails before anything else happens). -/
def mkRecursive (k : OpKind) (sg th : ℚ → ℚ) (hidden_size padding_idx : Nat)
    (paren_open paren_close : Nat) (W : List (List ℚ)) (b : List ℚ)
    (emb : Nat → Vec) : Option RecursiveEnc :=
  match k with
  | OpKind.rnn =>
      some ⟨hidden_size, padding_idx, paren_open, paren_close, emb,
            RNNOp.fwd th ⟨W, b⟩⟩
  | OpKind.lstm =>
      (LSTMOp.mk? hidden_size W b).map
        (fun m => ⟨hidden_size, padding_idx, paren_open, paren_close, emb,
                   LSTMOp.fwd sg th m⟩)

/-- Configuration of the stack machine `Recursive_`: the reserved token ids,
the hidden size, the embedding table and the combine operator (both taken as
arbitrary functions, matching the pluggable-operator contract). -/
structure Cfg where
  hidden_size : Nat
  padding_idx : Nat
  paren_open : Nat
  paren_close : Nat
  emb : Nat → Vec
  op : Vec → Vec → Vec

/-- The all-zeros vector the stack is initialised with
(`torch.zeros(..., hidden_size)`). -/
def zeroVec (c : Cfg) : Vec := List.replicate c.hidden_size 0

/-- `token_mask` at one position:
`(x != padding_idx) & ~(x == paren_open) & ~(x == paren_close)`. -/
def isTokenId (c : Cfg) (x : Nat) : Bool :=
  (x != c.padding_idx) && (x != c.paren_open) && (x != c.paren_close)

/-- `close_mask` at one position: `x == paren_close`. -/
def isCloseId (c : Cfg) (x : Nat) : Bool := x == c.paren_close

/-- `open_mask | ~length_mask` at one position: open bracket or padding. -/
def doNothingId (c : Cfg) (x : Nat) : Bool :=
  (x == c.paren_open) || (x == c.padding_idx)

/-- Torch index semantics on an axis of length `n`: a negative index wraps
once from the end. -/
def wrapIdx (n : Nat) (i : Int) : Nat := (if i < 0 then i + n else i).toNat

/-- Read a stack slot (torch advanced indexing along the slot axis). -/
def readSlot (c : Cfg) (row : List Vec) (i : Int) : Vec :=
  row.getD (wrapIdx row.length i) (zeroVec c)

/-- Write a stack slot (`Tensor.index_put` along the slot axis). -/
def writeSlot (row : List Vec) (i : Int) (x : Vec) : List Vec :=
  row.set (wrapIdx row.length i) x

/-- One sequence's slice of the machine state: its stack rows and its
stack pointer. -/
structure SeqState where
  stack : List Vec
  ptr : Int
deriving DecidableEq

/-- `Recursive_.step` restricted to one batch row `b`.  In the source both
sub-steps are computed batch-wide and then kept only on their mask
(`stack[is_token] = stack_[is_token]` etc.); because row `b`'s update reads
and writes only row `b`, and `is_token` and `is_close` are mutually
exclusive by construction, the per-row effect is exactly: shift if the
token mask holds, else reduce if the close mask holds, else no change. -/
def stepRow (c : Cfg) (x : Nat) (st : SeqState) : SeqState :=
  if isTokenId c x then
    ⟨writeSlot st.stack st.ptr (c.emb x), st.ptr + 1⟩
  else if isCloseId c x then
    let r := readSlot c st.stack (st.ptr - 1)
    let l := readSlot c st.stack (st.ptr - 2)
    ⟨writeSlot st.stack (st.ptr - 2) (c.op l r), st.ptr - 1⟩
  else st

/-- The freshly allocated per-sequence state: `height` zero vectors and a
zero stack pointer. -/
def initState (c : Cfg) (height : Nat) : SeqState :=
  ⟨List.replicate height (zeroVec c), 0⟩

/-- Number of `token_mask` positions of one sequence. -/
def tokCount (c : Cfg) (s : List Nat) : Nat :=
  (s.filter (fun x => isTokenId c x)).length

/-- Number of `close_mask` positions of one sequence. -/
def closeCount (c : Cfg) (s : List Nat) : Nat :=
  (s.filter (fun x => isCloseId c x)).length

/-- `stack_height = token_mask.sum(dim=0).max() + 1`. -/
def stackHeight (c : Cfg) (seqs : List (List Nat)) : Nat :=
  (seqs.map (tokCount c)).foldl max 0 + 1

/-- `max_length = input.size(0)` (the common, padded sequence length). -/
def maxLen (seqs : List (List Nat)) : Nat :=
  (seqs.map List.length).foldl max 0

/-- The batch column the source reads at time `t` (`input[t]`); positions
past a sequence's end read as padding. -/
def colAt (c : Cfg) (seqs : List (List Nat)) (t : Nat) : List Nat :=
  seqs.map (fun s => s.getD t c.padding_idx)

/-- `do_nothing[t] = (open_mask | ~length_mask).all(dim=1)` at one column. -/
def doNothingCol (c : Cfg) (col : List Nat) : Bool :=
  col.all (fun x => doNothingId c x)

/-- One full `Recursive_.step` call across the batch. -/
def batchStep (c : Cfg) (col : List Nat) (sts : List SeqState) : List SeqState :=
  List.zipWith (fun x st => stepRow c x st) col sts

/-- The time loop of `Recursive_.forward`: steps `t = 0..T-1`, skipping the
columns whose `do_nothing` flag is set. -/
def runBatchAux (c : Cfg) (seqs : List (List Nat)) (T : Nat)
    (sts : List SeqState) : List SeqState :=
  (List.range T).foldl
    (fun sts t =>
      if doNothingCol c (colAt c seqs t) then sts
      else batchStep c (colAt c seqs t) sts)
    sts

/-- Whole-machine state after all time steps of `Recursive_.forward`. -/
def forwardStates (c : Cfg) (seqs : List (List Nat)) : List SeqState :=
  runBatchAux c seqs (maxLen seqs)
    (seqs.map (fun _ => initState c (stackHeight c seqs)))

/-- `Recursive_.forward`: run the machine, then return `stack[:, 0]`. -/
def forward (c : Cfg) (seqs : List (List Nat)) : List Vec :=
  (forwardStates c seqs).map (fun st => st.stack.getD 0 (zeroVec c))

/-- The time loop with the `do_nothing` short-circuit omitted: every column
is stepped.  This is the counterfactual the specification describes when it
says the skip must not change results. -/
def runBatchAuxNoSkip (c : Cfg) (seqs : List (List Nat)) (T : Nat)
    (sts : List SeqState) : List SeqState :=
  (List.range T).foldl (fun sts t => batchStep c (colAt c seqs t) sts) sts

/-- `forward` with the `do_nothing` short-circuit omitted. -/
def forwardNoSkip (c : Cfg) (seqs : List (List Nat)) : List Vec :=
  (runBatchAuxNoSkip c seqs (maxLen seqs)
    (seqs.map (fun _ => initState c (stackHeight c seqs)))).map
    (fun st => st.stack.getD 0 (zeroVec c))

/-- One sequence stepped through every one of its own positions, with no
skipping: the per-row unfolding of the batch loop. -/
def runRow (c : Cfg) (s : List Nat) (st : SeqState) : SeqState :=
  s.foldl (fun st x => stepRow c x st) st

/-- One sequence stepped through `T` time positions, reading padding past
its end, with no skipping. -/
def runRowSteps (c : Cfg) (s : List Nat) (T : Nat) (st : SeqState) : SeqState :=
  (List.range T).foldl (fun st t => stepRow c (s.getD t c.padding_idx) st) st

/-- Net stack movement of a sequence: pushes minus reduces. -/
def bal (c : Cfg) (s : List Nat) : Int :=
  (tokCount c s : Int) - (closeCount c s : Int)

/-- Well-formed bracketing, as the specification itself characterises it:
every close bracket finds at least two prior live stack entries, and the
whole sequence reduces to exactly one live entry. -/
def WellFormed (c : Cfg) (s : List Nat) : Prop :=
  (∀ k, k < s.length → isCloseId c (s.getD k c.paren_open) = true →
      2 ≤ bal c (s.take k)) ∧ bal c s = 1

instance (c : Cfg) (s : List Nat) : Decidable (WellFormed c s) := by
  unfold WellFormed
  infer_instance

/-- A sequence of invocations of a combine operator, as the stack machine
performs an unbounded, input-dependent number of them within one forward
pass. -/
def callEach (op : Vec → Vec → Vec) (ps : List (Vec × Vec)) : List Vec :=
  ps.map (fun p => op p.1 p.2)

/-- A concrete configuration mirroring the source's own test harness
(`padding_idx = 4`, `parens_id = (0, 1)`, hidden size 1), with a concrete
embedding table and combine operator, used to evaluate the theorems below
on closed inputs. -/
def demoCfg : Cfg :=
  ⟨1, 4, 0, 1, fun x => [(x : ℚ)],
   fun l r => [2 * l.getD 0 0 + r.getD 0 0]⟩

end StackRNN

namespace StackRNN

variable {c : Cfg}

/-! ### Basic facts about the masks and one step -/

theorem isTokenId_open : isTokenId c c.paren_open = false := by
  simp [isTokenId]

theorem isTokenId_close : isTokenId c c.paren_close = false := by
  simp [isTokenId]

theorem isTokenId_pad : isTokenId c c.padding_idx = false := by
  simp [isTokenId]

theorem isCloseId_self : isCloseId c c.paren_close = true := by
  simp [isCloseId]

theorem isTokenId_iff {x : Nat} :
    isTokenId c x = true ↔
      x ≠ c.padding_idx ∧ x ≠ c.paren_open ∧ x ≠ c.paren_close := by
  simp [isTokenId, and_assoc]

theorem isCloseId_of_token {x : Nat} (hx : isTokenId c x = true) :
    isCloseId c x = false := by
  rcases isTokenId_iff.1 hx with ⟨_, _, h3⟩
  simp [isCloseId, h3]

theorem isCloseId_open (hpo : c.paren_close ≠ c.paren_open) :
    isCloseId c c.paren_open = false := by
  simp [isCloseId]
  exact fun h => hpo h.symm

theorem isCloseId_pad (hpad : c.paren_close ≠ c.padding_idx) :
    isCloseId c c.padding_idx = false := by
  simp [isCloseId]
  exact fun h => hpad h.symm

theorem stepRow_token {x : Nat} (st : SeqState) (hx : isTokenId c x = true) :
    stepRow c x st = ⟨writeSlot st.stack st.ptr (c.emb x), st.ptr + 1⟩ := by
  simp [stepRow, hx]

theorem stepRow_close {x : Nat} (st : SeqState)
    (ht : isTokenId c x = false) (hx : isCloseId c x = true) :
    stepRow c x st =
      ⟨writeSlot st.stack (st.ptr - 2)
        (c.op (readSlot c st.stack (st.ptr - 2)) (readSlot c st.stack (st.ptr - 1))),
       st.ptr - 1⟩ := by
  simp [stepRow, ht, hx]

theorem stepRow_other {x : Nat} (st : SeqState)
    (ht : isTokenId c x = false) (hc : isCloseId c x = false) :
    stepRow c x st = st := by
  simp [stepRow, ht, hc]

theorem stepRow_inert {x : Nat} (st : SeqState)
    (hpo : c.paren_close ≠ c.paren_open) (hpad : c.paren_close ≠ c.padding_idx)
    (hx : doNothingId c x = true) : stepRow c x st = st := by
  have hx' : x = c.paren_open ∨ x = c.padding_idx := by
    simpa [doNothingId] using hx
  rcases hx' with h | h <;> subst h
  · exact stepRow_other st isTokenId_open (isCloseId_open hpo)
  · exact stepRow_other st isTokenId_pad (isCloseId_pad hpad)

theorem length_writeSlot (row : List Vec) (i : Int) (x : Vec) :
    (writeSlot row i x).length = row.length := by
  simp [writeSlot]

theorem stack_length_stepRow (x : Nat) (st : SeqState) :
    (stepRow c x st).stack.length = st.stack.length := by
  unfold stepRow
  split
  · simp [length_writeSlot]
  · split
    · simp [length_writeSlot]
    · rfl

/-! ### Peeling the time loop -/

theorem runBatchAux_zero (seqs : List (List Nat)) (sts : List SeqState) :
    runBatchAux c seqs 0 sts = sts := rfl

theorem runBatchAux_succ (seqs : List (List Nat)) (T : Nat) (sts : List SeqState) :
    runBatchAux c seqs (T + 1) sts =
      if doNothingCol c (colAt c seqs T) then runBatchAux c seqs T sts
      else batchStep c (colAt c seqs T) (runBatchAux c seqs T sts) := by
  unfold runBatchAux
  rw [List.range_succ, List.foldl_append]
  rfl

theorem runBatchAuxNoSkip_succ (seqs : List (List Nat)) (T : Nat) (sts : List SeqState) :
    runBatchAuxNoSkip c seqs (T + 1) sts =
      batchStep c (colAt c seqs T) (runBatchAuxNoSkip c seqs T sts) := by
  unfold runBatchAuxNoSkip
  rw [List.range_succ, List.foldl_append]
  rfl

theorem runRowSteps_zero (s : List Nat) (st : SeqState) :
    runRowSteps c s 0 st = st := rfl

theorem runRowSteps_succ (s : List Nat) (T : Nat) (st : SeqState) :
    runRowSteps c s (T + 1) st =
      stepRow c (s.getD T c.padding_idx) (runRowSteps c s T st) := by
  unfold runRowSteps
  rw [List.range_succ, List.foldl_append]
  rfl

theorem length_colAt (seqs : List (List Nat)) (t : Nat) :
    (colAt c seqs t).length = seqs.length := by
  simp [colAt]

theorem length_batchStep (col : List Nat) (sts : List SeqState) :
    (batchStep c col sts).length = min col.length sts.length := by
  simp [batchStep]

theorem length_runBatchAux (seqs : List (List Nat)) (T : Nat) (sts : List SeqState)
    (h : sts.length = seqs.length) :
    (runBatchAux c seqs T sts).length = seqs.length := by
  induction T with
  | zero => simpa [runBatchAux_zero] using h
  | succ T ih =>
    rw [runBatchAux_succ]
    split
    · exact ih
    · simp [length_batchStep, length_colAt, ih]

end StackRNN

namespace StackRNN

variable {c : Cfg}

/-! ### Generic list access helpers -/

theorem getElem?_zipWith_of_lt {α β γ : Type} (f : α → β → γ) (as : List α)
    (bs : List β) (i : Nat) (h1 : i < as.length) (h2 : i < bs.length) :
    (List.zipWith f as bs)[i]? = some (f as[i] bs[i]) := by
  rw [List.getElem?_zipWith, List.getElem?_eq_getElem h1, List.getElem?_eq_getElem h2]

theorem getD_of_lt {α : Type} (l : List α) (i : Nat) (d : α) (h : i < l.length) :
    l.getD i d = l[i] := by
  rw [List.getD_eq_getElem?_getD, List.getElem?_eq_getElem h]
  rfl

theorem getD_of_le {α : Type} (l : List α) (i : Nat) (d : α) (h : l.length ≤ i) :
    l.getD i d = d := by
  rw [List.getD_eq_getElem?_getD, List.getElem?_eq_none h]
  rfl

theorem getD_set {α : Type} (l : List α) (j i : Nat) (a d : α) :
    (l.set j a).getD i d = if j = i ∧ j < l.length then a else l.getD i d := by
  rw [List.getD_eq_getElem?_getD, List.getD_eq_getElem?_getD, List.getElem?_set]
  by_cases h1 : j = i
  · subst h1
    by_cases h2 : j < l.length
    · rw [if_pos rfl, if_pos h2, if_pos ⟨rfl, h2⟩]
      rfl
    · rw [if_pos rfl, if_neg h2, if_neg (fun h => h2 h.2),
        List.getElem?_eq_none (by omega)]
  · rw [if_neg h1, if_neg (fun h => h1 h.1)]

theorem getD_replicate_self {α : Type} (n i : Nat) (a : α) :
    (List.replicate n a).getD i a = a := by
  rw [List.getD_eq_getElem?_getD, List.getElem?_replicate]
  split <;> rfl

theorem getD_replicate_of_lt {α : Type} (n i : Nat) (a d : α) (h : i < n) :
    (List.replicate n a).getD i d = a := by
  rw [List.getD_eq_getElem?_getD, List.getElem?_replicate, if_pos h]
  rfl

theorem eq_singleton_of_length_one {α : Type} (l : List α) (v : α)
    (h : l.length = 1) (h0 : l[0]? = some v) : l = [v] := by
  match l, h with
  | [x], _ =>
    simp at h0
    rw [h0]

/-! ### Folded maximum -/

theorem init_le_foldl_max (l : List Nat) (init : Nat) : init ≤ l.foldl max init := by
  induction l generalizing init with
  | nil => exact le_refl _
  | cons a l ih => exact le_trans (le_max_left init a) (ih (max init a))

theorem le_foldl_max (l : List Nat) : ∀ (init a : Nat), a ∈ l → a ≤ l.foldl max init := by
  induction l with
  | nil =>
    intro _ _ h
    cases h
  | cons x l ih =>
    intro init a h
    rcases List.mem_cons.1 h with h | h
    · subst h
      exact le_trans (le_max_right init a) (init_le_foldl_max l (max init a))
    · exact ih (max init x) a h

/-! ### The batch advances each row independently (lockstep decomposition) -/

theorem runBatchAux_getElem? (hpo : c.paren_close ≠ c.paren_open)
    (hpad : c.paren_close ≠ c.padding_idx)
    (seqs : List (List Nat)) (T : Nat) (sts : List SeqState) (b : Nat)
    (hsts : sts.length = seqs.length) (hb : b < seqs.length) :
    (runBatchAux c seqs T sts)[b]? =
      (sts[b]?).map (fun st => runRowSteps c (seqs.getD b []) T st) := by
  induction T with
  | zero =>
    rw [runBatchAux_zero]
    cases h : sts[b]? <;> simp [runRowSteps_zero]
  | succ T ih =>
    have hbs : b < sts.length := by omega
    have hsome : sts[b]? = some sts[b] := List.getElem?_eq_getElem hbs
    have hgd : seqs.getD b [] = seqs[b] := getD_of_lt seqs b [] hb
    rw [runBatchAux_succ]
    split
    · next hskip =>
      rw [ih]
      have hmem : (seqs[b]).getD T c.padding_idx ∈ colAt c seqs T := by
        unfold colAt
        exact List.mem_map_of_mem _ (List.getElem_mem hb)
      have hinert : doNothingId c ((seqs[b]).getD T c.padding_idx) = true := by
        have := List.all_eq_true.1 hskip _ hmem
        simpa using this
      rw [hsome]
      simp only [Option.map_some']
      rw [runRowSteps_succ, hgd, stepRow_inert _ hpo hpad hinert]
    · next hrun =>
      have h1 : b < (colAt c seqs T).length := by rw [length_colAt]; exact hb
      have h2 : b < (runBatchAux c seqs T sts).length := by
        rw [length_runBatchAux seqs T sts hsts]; exact hb
      unfold batchStep
      rw [getElem?_zipWith_of_lt _ _ _ b h1 h2]
      have hprev : (runBatchAux c seqs T sts)[b] =
          runRowSteps c (seqs.getD b []) T sts[b] := by
        have := ih
        rw [hsome] at this
        simp only [Option.map_some'] at this
        have h2' := List.getElem?_eq_getElem h2
        rw [this] at h2'
        exact Option.some.inj h2'.symm
      have hcol : (colAt c seqs T)[b] = (seqs[b]).getD T c.padding_idx := by
        unfold colAt
        rw [List.getElem_map]
      rw [hprev, hcol, hsome]
      simp only [Option.map_some']
      rw [runRowSteps_succ, hgd]

end StackRNN

namespace StackRNN

variable {c : Cfg}

/-! ### From stepped-through-time to stepped-through-the-sequence -/

theorem map_getD_range_take {α : Type} (s : List α) (d : α) (k : Nat)
    (h : k ≤ s.length) :
    (List.range k).map (fun t => s.getD t d) = s.take k := by
  induction k with
  | zero => simp
  | succ k ih =>
    have hk : k < s.length := by omega
    rw [List.range_succ, List.map_append, ih (by omega)]
    show List.take k s ++ [s.getD k d] = List.take (k + 1) s
    rw [getD_of_lt s k d hk, List.take_succ, List.getElem?_eq_getElem hk]
    rfl

theorem map_getD_range_full {α : Type} (s : List α) (d : α) (T : Nat)
    (h : s.length ≤ T) :
    (List.range T).map (fun t => s.getD t d) =
      s ++ List.replicate (T - s.length) d := by
  induction T with
  | zero =>
    have : s = [] := List.length_eq_zero.1 (by omega)
    subst this
    simp
  | succ T ih =>
    by_cases hT : s.length ≤ T
    · rw [List.range_succ, List.map_append, ih hT]
      show s ++ List.replicate (T - s.length) d ++ [s.getD T d] =
        s ++ List.replicate (T + 1 - s.length) d
      have h2 : T + 1 - s.length = (T - s.length) + 1 := by omega
      rw [getD_of_le s T d hT, h2, List.replicate_succ', List.append_assoc]
    · have hlen : s.length = T + 1 := by omega
      rw [map_getD_range_take s d (T + 1) (by omega)]
      rw [List.take_of_length_le (by omega), hlen]
      simp

theorem runRowSteps_eq_foldl_map (s : List Nat) (T : Nat) (st : SeqState) :
    runRowSteps c s T st =
      ((List.range T).map (fun t => s.getD t c.padding_idx)).foldl
        (fun st x => stepRow c x st) st := by
  unfold runRowSteps
  rw [List.foldl_map]

theorem runRow_inert (s : List Nat) (st : SeqState)
    (h : ∀ x ∈ s, isTokenId c x = false ∧ isCloseId c x = false) :
    runRow c s st = st := by
  induction s generalizing st with
  | nil => rfl
  | cons x s ih =>
    have hx := h x (by simp)
    unfold runRow
    rw [List.foldl_cons]
    have : stepRow c x st = st := stepRow_other st hx.1 hx.2
    rw [this]
    exact ih st (fun y hy => h y (by simp [hy]))

theorem runRow_append (s1 s2 : List Nat) (st : SeqState) :
    runRow c (s1 ++ s2) st = runRow c s2 (runRow c s1 st) := by
  unfold runRow
  rw [List.foldl_append]

theorem runRowSteps_eq_take (s : List Nat) (k : Nat) (st : SeqState)
    (h : k ≤ s.length) :
    runRowSteps c s k st = runRow c (s.take k) st := by
  rw [runRowSteps_eq_foldl_map, map_getD_range_take s _ k h]
  rfl

theorem runRowSteps_eq_runRow (s : List Nat) (T : Nat) (st : SeqState)
    (hpad : c.paren_close ≠ c.padding_idx) (hT : s.length ≤ T) :
    runRowSteps c s T st = runRow c s st := by
  rw [runRowSteps_eq_foldl_map, map_getD_range_full s _ T hT, ← runRow,
    runRow_append]
  exact runRow_inert _ _ (fun x hx => by
    rw [List.eq_of_mem_replicate hx]
    exact ⟨isTokenId_pad, isCloseId_pad hpad⟩)

/-! ### The per-row reading of `Recursive_.forward` -/

theorem length_seq_le_maxLen (seqs : List (List Nat)) (b : Nat)
    (hb : b < seqs.length) : (seqs.getD b []).length ≤ maxLen seqs := by
  unfold maxLen
  rw [getD_of_lt seqs b [] hb]
  exact le_foldl_max _ 0 _ (List.mem_map_of_mem _ (List.getElem_mem hb))

theorem tokCount_le_heights (seqs : List (List Nat)) (b : Nat)
    (hb : b < seqs.length) :
    tokCount c (seqs.getD b []) + 1 ≤ stackHeight c seqs := by
  unfold stackHeight
  have : tokCount c (seqs.getD b []) ≤ (seqs.map (tokCount c)).foldl max 0 := by
    rw [getD_of_lt seqs b [] hb]
    exact le_foldl_max _ 0 _ (List.mem_map_of_mem _ (List.getElem_mem hb))
  omega

theorem forwardStates_getElem? (hpo : c.paren_close ≠ c.paren_open)
    (hpad : c.paren_close ≠ c.padding_idx) (seqs : List (List Nat)) (b : Nat)
    (hb : b < seqs.length) :
    (forwardStates c seqs)[b]? =
      some (runRow c (seqs.getD b []) (initState c (stackHeight c seqs))) := by
  unfold forwardStates
  rw [runBatchAux_getElem? hpo hpad seqs (maxLen seqs) _ b (by simp) hb]
  rw [List.getElem?_map, List.getElem?_eq_getElem hb]
  simp only [Option.map_some']
  rw [runRowSteps_eq_runRow _ _ _ hpad (length_seq_le_maxLen seqs b hb)]

theorem forward_getElem? (hpo : c.paren_close ≠ c.paren_open)
    (hpad : c.paren_close ≠ c.padding_idx) (seqs : List (List Nat)) (b : Nat)
    (hb : b < seqs.length) :
    (forward c seqs)[b]? =
      some ((runRow c (seqs.getD b [])
        (initState c (stackHeight c seqs))).stack.getD 0 (zeroVec c)) := by
  unfold forward
  rw [List.getElem?_map, forwardStates_getElem? hpo hpad seqs b hb]
  rfl

end StackRNN

namespace StackRNN

variable {c : Cfg}

/-! ### Stack-pointer arithmetic -/

theorem isTokenId_of_close {x : Nat} (h : isCloseId c x = true) :
    isTokenId c x = false := by
  have hx : x = c.paren_close := by simpa [isCloseId] using h
  subst hx
  exact isTokenId_close

theorem bal_nil : bal c [] = 0 := by
  simp [bal, tokCount, closeCount]

theorem bal_append (s1 s2 : List Nat) :
    bal c (s1 ++ s2) = bal c s1 + bal c s2 := by
  unfold bal tokCount closeCount
  rw [List.filter_append, List.filter_append]
  simp only [List.length_append]
  push_cast
  ring

theorem bal_single (x : Nat) :
    bal c [x] =
      if isTokenId c x then 1 else if isCloseId c x then (-1 : Int) else 0 := by
  unfold bal tokCount closeCount
  by_cases h1 : isTokenId c x = true
  · simp [List.filter_cons, h1, isCloseId_of_token h1]
  · simp only [Bool.not_eq_true] at h1
    by_cases h2 : isCloseId c x = true
    · simp [List.filter_cons, h1, h2]
    · simp only [Bool.not_eq_true] at h2
      simp [List.filter_cons, h1, h2]

theorem bal_cons (x : Nat) (s : List Nat) :
    bal c (x :: s) =
      (if isTokenId c x then 1 else if isCloseId c x then (-1 : Int) else 0) +
        bal c s := by
  have hx : (x :: s) = [x] ++ s := rfl
  rw [hx, bal_append, bal_single]


theorem ptr_stepRow (x : Nat) (st : SeqState) :
    (stepRow c x st).ptr =
      st.ptr +
        (if isTokenId c x then 1 else if isCloseId c x then (-1 : Int) else 0) := by
  cases h1 : isTokenId c x <;> cases h2 : isCloseId c x <;>
    simp [stepRow, h1, h2] <;> omega

theorem ptr_runRow (s : List Nat) : ∀ st : SeqState,
    (runRow c s st).ptr = st.ptr + bal c s := by
  induction s with
  | nil =>
    intro st
    simp [runRow, bal_nil]
  | cons x s ih =>
    intro st
    have hstep : runRow c (x :: s) st = runRow c s (stepRow c x st) := rfl
    rw [hstep, ih, ptr_stepRow, bal_cons]
    ring

theorem tokCount_take_le (s : List Nat) (k : Nat) :
    tokCount c (s.take k) ≤ tokCount c s := by
  unfold tokCount
  exact List.Sublist.length_le (List.Sublist.filter _ (List.take_sublist k s))

theorem bal_take_le_tok (s : List Nat) (k : Nat) :
    bal c (s.take k) ≤ (tokCount c s : Int) := by
  unfold bal
  have h1 : tokCount c (s.take k) ≤ tokCount c s := tokCount_take_le s k
  omega

theorem bal_take_nonneg (s : List Nat)
    (hwf : ∀ k, k < s.length → isCloseId c (s.getD k c.paren_open) = true →
        2 ≤ bal c (s.take k)) :
    ∀ k, 0 ≤ bal c (s.take k) := by
  intro k
  induction k with
  | zero => simp [bal_nil]
  | succ k ih =>
    by_cases hk : k < s.length
    · have htake : s.take (k + 1) = s.take k ++ [s[k]] := by
        rw [List.take_succ, List.getElem?_eq_getElem hk]
        rfl
      rw [htake, bal_append]
      by_cases hc : isCloseId c s[k] = true
      · have h2 := hwf k hk (by rw [getD_of_lt s k _ hk]; exact hc)
        have hval : bal c [s[k]] = -1 := by
          simp [bal_single, isTokenId_of_close hc, hc]
        omega
      · have hval : bal c [s[k]] = 1 ∨ bal c [s[k]] = 0 := by
          by_cases ht : isTokenId c s[k] = true
          · exact Or.inl (by simp [bal_single, ht])
          · refine Or.inr ?hz
            simp only [Bool.not_eq_true] at ht hc
            simp [bal_single, ht, hc]
        rcases hval with h | h <;> omega
    · rw [List.take_of_length_le (by omega)]
      rw [List.take_of_length_le (by omega)] at ih
      exact ih

end StackRNN

namespace StackRNN

variable {c : Cfg}

/-! ### Height independence of the per-row run -/

theorem wrapIdx_nonneg (n : Nat) (i : Int) (h : 0 ≤ i) : wrapIdx n i = i.toNat := by
  unfold wrapIdx
  rw [if_neg (by omega)]

theorem readSlot_nonneg (row : List Vec) (i : Int) (h : 0 ≤ i) :
    readSlot c row i = row.getD i.toNat (zeroVec c) := by
  unfold readSlot
  rw [wrapIdx_nonneg _ _ h]

theorem writeSlot_nonneg (row : List Vec) (i : Int) (x : Vec) (h : 0 ≤ i) :
    writeSlot row i x = row.set i.toNat x := by
  unfold writeSlot
  rw [wrapIdx_nonneg _ _ h]

theorem runRow_agree (N : Nat) : ∀ (s : List Nat) (st1 st2 : SeqState),
    st1.ptr = st2.ptr →
    0 ≤ st1.ptr →
    N ≤ st1.stack.length →
    N ≤ st2.stack.length →
    (∀ i, i < N → st1.stack.getD i (zeroVec c) = st2.stack.getD i (zeroVec c)) →
    (∀ k, k < s.length → isCloseId c (s.getD k c.paren_open) = true →
        2 ≤ st1.ptr + bal c (s.take k)) →
    (∀ k, k ≤ s.length → st1.ptr + bal c (s.take k) < (N : Int)) →
    (runRow c s st1).ptr = (runRow c s st2).ptr ∧
      ∀ i, i < N →
        (runRow c s st1).stack.getD i (zeroVec c) =
          (runRow c s st2).stack.getD i (zeroVec c) := by
  intro s
  induction s with
  | nil =>
    intro st1 st2 hp h0 hl1 hl2 hag hcl hbd
    exact ⟨by rw [ptr_runRow, ptr_runRow, hp], hag⟩
  | cons x s ih =>
    intro st1 st2 hp h0 hl1 hl2 hag hcl hbd
    have hstep1 : runRow c (x :: s) st1 = runRow c s (stepRow c x st1) := rfl
    have hstep2 : runRow c (x :: s) st2 = runRow c s (stepRow c x st2) := rfl
    rw [hstep1, hstep2]
    have hbd0 : st1.ptr < (N : Int) := by
      have h := hbd 0 (by omega)
      rw [List.take_zero, bal_nil] at h
      omega
    by_cases ht : isTokenId c x = true
    · -- shift step
      have e1 : stepRow c x st1 =
          ⟨writeSlot st1.stack st1.ptr (c.emb x), st1.ptr + 1⟩ :=
        stepRow_token st1 ht
      have e2 : stepRow c x st2 =
          ⟨writeSlot st2.stack st2.ptr (c.emb x), st2.ptr + 1⟩ :=
        stepRow_token st2 ht
      refine ih (stepRow c x st1) (stepRow c x st2) ?_ ?_ ?_ ?_ ?_ ?_ ?_
      · rw [e1, e2, hp]
      · rw [e1]
        show 0 ≤ st1.ptr + 1
        omega
      · rw [e1]
        show N ≤ (writeSlot st1.stack st1.ptr (c.emb x)).length
        rw [length_writeSlot]
        exact hl1
      · rw [e2]
        show N ≤ (writeSlot st2.stack st2.ptr (c.emb x)).length
        rw [length_writeSlot]
        exact hl2
      · intro i hi
        rw [e1, e2]
        show (writeSlot st1.stack st1.ptr (c.emb x)).getD i (zeroVec c) =
          (writeSlot st2.stack st2.ptr (c.emb x)).getD i (zeroVec c)
        rw [writeSlot_nonneg _ _ _ h0, writeSlot_nonneg _ _ _ (hp ▸ h0), ← hp]
        rw [getD_set, getD_set]
        by_cases hij : st1.ptr.toNat = i
        · rw [if_pos ⟨hij, by omega⟩, if_pos ⟨hij, by omega⟩]
        · rw [if_neg (fun h => hij h.1), if_neg (fun h => hij h.1)]
          exact hag i hi
      · intro k hk hcls
        have h := hcl (k + 1) (by simpa using Nat.succ_lt_succ hk)
          (by simpa using hcls)
        rw [List.take_succ_cons, bal_cons] at h
        rw [e1]
        show 2 ≤ st1.ptr + 1 + bal c (s.take k)
        rw [if_pos ht] at h
        omega
      · intro k hk
        have h := hbd (k + 1) (by simpa using Nat.succ_le_succ hk)
        rw [List.take_succ_cons, bal_cons] at h
        rw [e1]
        show st1.ptr + 1 + bal c (s.take k) < (N : Int)
        rw [if_pos ht] at h
        omega
    · by_cases hc : isCloseId c x = true
      · -- reduce step
        have h2p : 2 ≤ st1.ptr := by
          have h := hcl 0 (by simp) (by simpa using hc)
          rw [List.take_zero, bal_nil] at h
          omega
        have e1 : stepRow c x st1 =
            ⟨writeSlot st1.stack (st1.ptr - 2)
              (c.op (readSlot c st1.stack (st1.ptr - 2))
                    (readSlot c st1.stack (st1.ptr - 1))),
             st1.ptr - 1⟩ :=
          stepRow_close st1 (by simpa using ht) hc
        have e2 : stepRow c x st2 =
            ⟨writeSlot st2.stack (st2.ptr - 2)
              (c.op (readSlot c st2.stack (st2.ptr - 2))
                    (readSlot c st2.stack (st2.ptr - 1))),
             st2.ptr - 1⟩ :=
          stepRow_close st2 (by simpa using ht) hc
        have hr2 : readSlot c st1.stack (st1.ptr - 2) =
            readSlot c st2.stack (st2.ptr - 2) := by
          rw [readSlot_nonneg _ _ (by omega), readSlot_nonneg _ _ (by rw [← hp]; omega), ← hp]
          exact hag _ (by omega)
        have hr1 : readSlot c st1.stack (st1.ptr - 1) =
            readSlot c st2.stack (st2.ptr - 1) := by
          rw [readSlot_nonneg _ _ (by omega), readSlot_nonneg _ _ (by rw [← hp]; omega), ← hp]
          exact hag _ (by omega)
        refine ih (stepRow c x st1) (stepRow c x st2) ?_ ?_ ?_ ?_ ?_ ?_ ?_
        · rw [e1, e2, hp]
        · rw [e1]
          show 0 ≤ st1.ptr - 1
          omega
        · rw [e1]
          show N ≤ (writeSlot st1.stack (st1.ptr - 2) _).length
          rw [length_writeSlot]
          exact hl1
        · rw [e2]
          show N ≤ (writeSlot st2.stack (st2.ptr - 2) _).length
          rw [length_writeSlot]
          exact hl2
        · intro i hi
          rw [e1, e2]
          show (writeSlot st1.stack (st1.ptr - 2) _).getD i (zeroVec c) =
            (writeSlot st2.stack (st2.ptr - 2) _).getD i (zeroVec c)
          rw [hr2, hr1]
          rw [writeSlot_nonneg _ _ _ (by omega), writeSlot_nonneg _ _ _ (by rw [← hp]; omega), ← hp]
          rw [getD_set, getD_set]
          by_cases hij : (st1.ptr - 2).toNat = i
          · rw [if_pos ⟨hij, by omega⟩, if_pos ⟨hij, by omega⟩]
          · rw [if_neg (fun h => hij h.1), if_neg (fun h => hij h.1)]
            exact hag i hi
        · intro k hk hcls
          have h := hcl (k + 1) (by simpa using Nat.succ_lt_succ hk)
            (by simpa using hcls)
          rw [List.take_succ_cons, bal_cons] at h
          rw [e1]
          show 2 ≤ st1.ptr - 1 + bal c (s.take k)
          rw [if_neg (by simp [ht]), if_pos hc] at h
          omega
        · intro k hk
          have h := hbd (k + 1) (by simpa using Nat.succ_le_succ hk)
          rw [List.take_succ_cons, bal_cons] at h
          rw [e1]
          show st1.ptr - 1 + bal c (s.take k) < (N : Int)
          rw [if_neg (by simp [ht]), if_pos hc] at h
          omega
      · -- inert step
        have e1 : stepRow c x st1 = st1 := stepRow_other st1 (by simpa using ht) (by simpa using hc)
        have e2 : stepRow c x st2 = st2 := stepRow_other st2 (by simpa using ht) (by simpa using hc)
        rw [e1, e2]
        refine ih st1 st2 hp h0 hl1 hl2 hag ?_ ?_
        · intro k hk hcls
          have h := hcl (k + 1) (by simpa using Nat.succ_lt_succ hk)
            (by simpa using hcls)
          rw [List.take_succ_cons, bal_cons] at h
          rw [if_neg (by simp [ht]), if_neg (by simp [hc])] at h
          omega
        · intro k hk
          have h := hbd (k + 1) (by simpa using Nat.succ_le_succ hk)
          rw [List.take_succ_cons, bal_cons] at h
          rw [if_neg (by simp [ht]), if_neg (by simp [hc])] at h
          omega

end StackRNN

namespace StackRNN

variable {c : Cfg}

/-! ### Auxiliary facts used by the claims -/

theorem length_forward (seqs : List (List Nat)) :
    (forward c seqs).length = seqs.length := by
  unfold forward forwardStates
  rw [List.length_map, length_runBatchAux _ _ _ (by simp)]

theorem batchStep_inert (hpo : c.paren_close ≠ c.paren_open)
    (hpad : c.paren_close ≠ c.padding_idx) :
    ∀ (col : List Nat) (sts : List SeqState), col.length = sts.length →
      (∀ x ∈ col, doNothingId c x = true) → batchStep c col sts = sts := by
  intro col
  induction col with
  | nil =>
    intro sts h _
    have : sts = [] := List.length_eq_zero.1 (by simpa using h.symm)
    subst this
    rfl
  | cons x col ih =>
    intro sts h hall
    match sts with
    | st :: sts =>
      show stepRow c x st :: batchStep c col sts = st :: sts
      rw [stepRow_inert st hpo hpad (hall x (by simp)),
        ih sts (by simpa using h) (fun y hy => hall y (by simp [hy]))]

theorem runBatchAuxNoSkip_eq (hpo : c.paren_close ≠ c.paren_open)
    (hpad : c.paren_close ≠ c.padding_idx) (seqs : List (List Nat)) (T : Nat)
    (sts : List SeqState) (h : sts.length = seqs.length) :
    runBatchAuxNoSkip c seqs T sts = runBatchAux c seqs T sts := by
  induction T with
  | zero => rfl
  | succ T ih =>
    rw [runBatchAuxNoSkip_succ, runBatchAux_succ, ih]
    by_cases hskip : doNothingCol c (colAt c seqs T) = true
    · rw [if_pos hskip]
      exact batchStep_inert hpo hpad _ _
        (by rw [length_colAt, length_runBatchAux _ _ _ h])
        (List.all_eq_true.1 hskip)
    · rw [if_neg hskip]

theorem runBatchAux_skip_tail (seqs : List (List Nat)) (T0 : Nat) :
    ∀ (T : Nat) (sts : List SeqState), T0 ≤ T →
      (∀ t, T0 ≤ t → doNothingCol c (colAt c seqs t) = true) →
      runBatchAux c seqs T sts = runBatchAux c seqs T0 sts := by
  intro T
  induction T with
  | zero =>
    intro sts hT _
    have : T0 = 0 := by omega
    rw [this]
  | succ T ih =>
    intro sts hT hall
    by_cases hT0 : T0 = T + 1
    · rw [hT0]
    · rw [runBatchAux_succ, if_pos (hall T (by omega)), ih sts (by omega) hall]

theorem tokCount_replicate_pad (n : Nat) :
    tokCount c (List.replicate n c.padding_idx) = 0 := by
  unfold tokCount
  induction n with
  | zero => rfl
  | succ n ih =>
    rw [List.replicate_succ, List.filter_cons]
    simp only [isTokenId_pad]
    simpa using ih

/-! ### Claim C3: batch independence -/

/-- Claim C3: for every batch of well-formed sequences and every row `b`,
encoding the whole batch and encoding row `b` alone as a batch of size one
produce the same root vector for row `b`; the other rows' padding and tree
depths do not influence it. -/
theorem claim_C3 (c : Cfg) (hpo : c.paren_close ≠ c.paren_open)
    (hpad : c.paren_close ≠ c.padding_idx) (seqs : List (List Nat))
    (hwf : ∀ s ∈ seqs, WellFormed c s) (b : Nat) (hb : b < seqs.length) :
    (forward c seqs)[b]? = (forward c [seqs.getD b []])[0]? := by
  rw [forward_getElem? hpo hpad seqs b hb,
    forward_getElem? hpo hpad [seqs.getD b []] 0 (by simp)]
  have hgd : (([seqs.getD b []].getD 0 []) : List Nat) = seqs.getD b [] := rfl
  rw [hgd]
  have hmem : seqs.getD b [] ∈ seqs := by
    rw [getD_of_lt seqs b [] hb]
    exact List.getElem_mem hb
  have hwfs : WellFormed c (seqs.getD b []) := hwf _ hmem
  have hH2 : stackHeight c [seqs.getD b []] = tokCount c (seqs.getD b []) + 1 := by
    simp [stackHeight]
  have hH1 : tokCount c (seqs.getD b []) + 1 ≤ stackHeight c seqs :=
    tokCount_le_heights seqs b hb
  have key := @runRow_agree c (tokCount c (seqs.getD b []) + 1)
    (seqs.getD b [])
    (initState c (stackHeight c seqs))
    (initState c (stackHeight c [seqs.getD b []]))
    rfl (le_refl 0)
    (by
      show tokCount c (seqs.getD b []) + 1 ≤
        (List.replicate (stackHeight c seqs) (zeroVec c)).length
      rw [List.length_replicate]
      exact hH1)
    (by
      show tokCount c (seqs.getD b []) + 1 ≤
        (List.replicate (stackHeight c [seqs.getD b []]) (zeroVec c)).length
      rw [List.length_replicate, hH2])
    (by
      intro i _
      show (List.replicate _ (zeroVec c)).getD i (zeroVec c) =
        (List.replicate _ (zeroVec c)).getD i (zeroVec c)
      rw [getD_replicate_self, getD_replicate_self])
    (by
      intro k hk hcls
      have h := hwfs.1 k hk hcls
      show 2 ≤ 0 + bal c ((seqs.getD b []).take k)
      omega)
    (by
      intro k _
      have h := @bal_take_le_tok c (seqs.getD b []) k
      show 0 + bal c ((seqs.getD b []).take k) <
        ((tokCount c (seqs.getD b []) + 1 : Nat) : Int)
      push_cast
      omega)
  exact congrArg some (key.2 0 (by omega))

/-! ### Claim C4: well-formed rows terminate with stack pointer one -/

/-- Claim C4: in a batch whose rows all have well-formed brackets (degenerate
rows of only padding and open brackets allowed), every row that contains at
least one non-padding token other than an open bracket ends all `T` time
steps with its stack pointer equal to one. -/
theorem claim_C4 (c : Cfg) (hpo : c.paren_close ≠ c.paren_open)
    (hpad : c.paren_close ≠ c.padding_idx) (seqs : List (List Nat))
    (hwf : ∀ s ∈ seqs,
      WellFormed c s ∨ ∀ x ∈ s, x = c.padding_idx ∨ x = c.paren_open)
    (b : Nat) (hb : b < seqs.length)
    (hnt : ∃ x ∈ seqs.getD b [], x ≠ c.padding_idx ∧ x ≠ c.paren_open) :
    ((forwardStates c seqs)[b]?).map SeqState.ptr = some 1 := by
  rw [forwardStates_getElem? hpo hpad seqs b hb]
  simp only [Option.map_some']
  have hmem : seqs.getD b [] ∈ seqs := by
    rw [getD_of_lt seqs b [] hb]
    exact List.getElem_mem hb
  rcases hwf _ hmem with hwfb | htriv
  · rw [ptr_runRow]
    show some ((0 : Int) + bal c (seqs.getD b [])) = some 1
    rw [hwfb.2]
    rfl
  · exfalso
    obtain ⟨x, hx, hx1, hx2⟩ := hnt
    rcases htriv x hx with h | h
    · exact hx1 h
    · exact hx2 h

/-! ### Claim C5: stack sizing and pointer bounds -/

/-- Claim C5: the stack is allocated with capacity one more than the largest
per-sequence count of pushable tokens, and under well-formed brackets (no
close bracket with fewer than two prior live entries) every row's stack
pointer stays between zero and that capacity at every step of the run. -/
theorem claim_C5 (c : Cfg) (hpo : c.paren_close ≠ c.paren_open)
    (hpad : c.paren_close ≠ c.padding_idx) (seqs : List (List Nat))
    (hwf : ∀ s ∈ seqs, ∀ k, k < s.length →
      isCloseId c (s.getD k c.paren_open) = true → 2 ≤ bal c (s.take k)) :
    stackHeight c seqs = 1 + (seqs.map (tokCount c)).foldl max 0 ∧
      ∀ (n b : Nat), b < seqs.length → ∀ st : SeqState,
        (runBatchAux c seqs n
          (seqs.map (fun _ => initState c (stackHeight c seqs))))[b]? = some st →
        0 ≤ st.ptr ∧ st.ptr ≤ (stackHeight c seqs : Int) := by
  constructor
  · simp [stackHeight, Nat.add_comm]
  · intro n b hb st hst
    rw [runBatchAux_getElem? hpo hpad seqs n _ b (by simp) hb,
      List.getElem?_map, List.getElem?_eq_getElem hb] at hst
    simp only [Option.map_some'] at hst
    have hst' := Option.some.inj hst
    subst hst'
    have hmem : seqs.getD b [] ∈ seqs := by
      rw [getD_of_lt seqs b [] hb]
      exact List.getElem_mem hb
    have hwfs := hwf _ hmem
    have hnn := bal_take_nonneg (seqs.getD b []) hwfs
    have htok := @tokCount_le_heights c seqs b hb
    by_cases hn : n ≤ (seqs.getD b []).length
    · rw [runRowSteps_eq_take _ n _ hn, ptr_runRow]
      have hub := @bal_take_le_tok c (seqs.getD b []) n
      have h0 := hnn n
      constructor
      · show 0 ≤ (initState c (stackHeight c seqs)).ptr + bal c ((seqs.getD b []).take n)
        show 0 ≤ (0 : Int) + bal c ((seqs.getD b []).take n)
        omega
      · show (initState c (stackHeight c seqs)).ptr + bal c ((seqs.getD b []).take n) ≤
          (stackHeight c seqs : Int)
        show (0 : Int) + bal c ((seqs.getD b []).take n) ≤ (stackHeight c seqs : Int)
        have : (tokCount c (seqs.getD b []) : Int) < (stackHeight c seqs : Int) := by
          push_cast
          omega
        omega
    · rw [runRowSteps_eq_runRow _ n _ hpad (by omega), ptr_runRow]
      have hfull : bal c (seqs.getD b []) =
          bal c ((seqs.getD b []).take (seqs.getD b []).length) := by
        rw [List.take_length]
      have hub := @bal_take_le_tok c (seqs.getD b []) (seqs.getD b []).length
      have h0 := hnn (seqs.getD b []).length
      constructor
      · show 0 ≤ (0 : Int) + bal c (seqs.getD b [])
        omega
      · show (0 : Int) + bal c (seqs.getD b []) ≤ (stackHeight c seqs : Int)
        have : (tokCount c (seqs.getD b []) : Int) < (stackHeight c seqs : Int) := by
          push_cast
          omega
        omega

/-! ### Claim C7: untouched rows pass through; the skip changes nothing -/

/-- Claim C7: within one time step a row whose current token is padding or an
open bracket keeps its stack and stack pointer unchanged, and running the
machine with the per-step `do_nothing` short-circuit removed returns exactly
the same output as the machine with it. -/
theorem claim_C7 (c : Cfg) (hpo : c.paren_close ≠ c.paren_open)
    (hpad : c.paren_close ≠ c.padding_idx) :
    (∀ (x : Nat) (st : SeqState),
        (x = c.padding_idx ∨ x = c.paren_open) → stepRow c x st = st) ∧
      ∀ seqs : List (List Nat), forwardNoSkip c seqs = forward c seqs := by
  constructor
  · intro x st hx
    apply stepRow_inert st hpo hpad
    rcases hx with h | h <;> simp [doNothingId, h]
  · intro seqs
    unfold forwardNoSkip forward forwardStates
    rw [runBatchAuxNoSkip_eq hpo hpad seqs (maxLen seqs) _ (by simp)]

/-! ### Claim C10: degenerate rows return the zero vector -/

/-- Claim C10: a row whose tokens are all padding or open brackets never has
its stack written, so the returned vector for that row is the all-zeros
vector of the hidden dimension. -/
theorem claim_C10 (c : Cfg) (hpo : c.paren_close ≠ c.paren_open)
    (hpad : c.paren_close ≠ c.padding_idx) (seqs : List (List Nat))
    (b : Nat) (hb : b < seqs.length)
    (hdeg : ∀ x ∈ seqs.getD b [], x = c.padding_idx ∨ x = c.paren_open) :
    (forward c seqs)[b]? = some (List.replicate c.hidden_size 0) := by
  rw [forward_getElem? hpo hpad seqs b hb]
  rw [runRow_inert _ _ (fun x hx => by
    rcases hdeg x hx with h | h <;> subst h
    · exact ⟨isTokenId_pad, isCloseId_pad hpad⟩
    · exact ⟨isTokenId_open, isCloseId_open hpo⟩)]
  show some ((List.replicate (stackHeight c seqs) (zeroVec c)).getD 0 (zeroVec c)) = _
  rw [getD_replicate_self]
  rfl

end StackRNN

namespace StackRNN

variable {c : Cfg}

/-! ### Step-by-step unfolding of a single-sequence run -/

theorem runRow_cons_other (x : Nat) (s : List Nat) (st : SeqState)
    (h1 : isTokenId c x = false) (h2 : isCloseId c x = false) :
    runRow c (x :: s) st = runRow c s st := by
  unfold runRow
  rw [List.foldl_cons, stepRow_other st h1 h2]

theorem runRow_cons_token (x : Nat) (s : List Nat) (st : SeqState)
    (h : isTokenId c x = true) :
    runRow c (x :: s) st =
      runRow c s ⟨writeSlot st.stack st.ptr (c.emb x), st.ptr + 1⟩ := by
  unfold runRow
  rw [List.foldl_cons, stepRow_token st h]

theorem runRow_cons_close (x : Nat) (s : List Nat) (st : SeqState)
    (h1 : isTokenId c x = false) (h2 : isCloseId c x = true) :
    runRow c (x :: s) st =
      runRow c s
        ⟨writeSlot st.stack (st.ptr - 2)
          (c.op (readSlot c st.stack (st.ptr - 2))
                (readSlot c st.stack (st.ptr - 1))),
         st.ptr - 1⟩ := by
  unfold runRow
  rw [List.foldl_cons, stepRow_close st h1 h2]

theorem forward_singleton (hpo : c.paren_close ≠ c.paren_open)
    (hpad : c.paren_close ≠ c.padding_idx) (s : List Nat) :
    forward c [s] =
      [(runRow c s (initState c (tokCount c s + 1))).stack.getD 0 (zeroVec c)] := by
  have hh : stackHeight c [s] = tokCount c s + 1 := by simp [stackHeight]
  apply eq_singleton_of_length_one
  · rw [length_forward]
    rfl
  · rw [forward_getElem? hpo hpad [s] 0 (by simp)]
    exact congrArg some (by rw [hh]; rfl)

/-! ### Claim C1: explicit tree structures evaluate to the nested combines -/

/-- Claim C1: for every embedding table and combine operator, encoding
`( ( a b ) ( c d ) )` returns `op(op(emb a, emb b), op(emb c, emb d))`, and
encoding `( a ( b ( c d ) ) )` returns
`op(emb a, op(emb b, op(emb c, emb d)))`, with the same operator applied at
every node (the third and fourth token are named `d` and `e` here). -/
theorem claim_C1 (c : Cfg) (hpo : c.paren_close ≠ c.paren_open)
    (hpad : c.paren_close ≠ c.padding_idx) (a b d e : Nat)
    (ha : isTokenId c a = true) (hb : isTokenId c b = true)
    (hd : isTokenId c d = true) (he : isTokenId c e = true) :
    forward c [[c.paren_open, c.paren_open, a, b, c.paren_close,
        c.paren_open, d, e, c.paren_close, c.paren_close]] =
      [c.op (c.op (c.emb a) (c.emb b)) (c.op (c.emb d) (c.emb e))] ∧
    forward c [[c.paren_open, a, c.paren_open, b, c.paren_open, d, e,
        c.paren_close, c.paren_close, c.paren_close]] =
      [c.op (c.emb a) (c.op (c.emb b) (c.op (c.emb d) (c.emb e)))] := by
  have hca := isCloseId_of_token ha
  have hcb := isCloseId_of_token hb
  have hcd := isCloseId_of_token hd
  have hce := isCloseId_of_token he
  have hto : isTokenId c c.paren_open = false := isTokenId_open
  have hco : isCloseId c c.paren_open = false := isCloseId_open hpo
  have htc : isTokenId c c.paren_close = false := isTokenId_close
  have hcc : isCloseId c c.paren_close = true := isCloseId_self
  constructor
  · rw [forward_singleton hpo hpad]
    have htok : tokCount c [c.paren_open, c.paren_open, a, b, c.paren_close,
        c.paren_open, d, e, c.paren_close, c.paren_close] = 4 := by
      unfold tokCount
      simp [List.filter_cons, ha, hb, hd, he, hto, htc]
    rw [htok]
    rw [runRow_cons_other _ _ _ hto hco, runRow_cons_other _ _ _ hto hco,
      runRow_cons_token _ _ _ ha, runRow_cons_token _ _ _ hb,
      runRow_cons_close _ _ _ htc hcc, runRow_cons_other _ _ _ hto hco,
      runRow_cons_token _ _ _ hd, runRow_cons_token _ _ _ he,
      runRow_cons_close _ _ _ htc hcc, runRow_cons_close _ _ _ htc hcc]
    rfl
  · rw [forward_singleton hpo hpad]
    have htok : tokCount c [c.paren_open, a, c.paren_open, b, c.paren_open,
        d, e, c.paren_close, c.paren_close, c.paren_close] = 4 := by
      unfold tokCount
      simp [List.filter_cons, ha, hb, hd, he, hto, htc]
    rw [htok]
    rw [runRow_cons_other _ _ _ hto hco, runRow_cons_token _ _ _ ha,
      runRow_cons_other _ _ _ hto hco, runRow_cons_token _ _ _ hb,
      runRow_cons_other _ _ _ hto hco, runRow_cons_token _ _ _ hd,
      runRow_cons_token _ _ _ he, runRow_cons_close _ _ _ htc hcc,
      runRow_cons_close _ _ _ htc hcc, runRow_cons_close _ _ _ htc hcc]
    rfl

end StackRNN

namespace StackRNN

/-! ### Claim C2: leaf identity -/

/-- Claim C2: a sequence of exactly one open bracket, one ordinary token and
then only padding encodes to exactly the embedding-table lookup of that
token, for every embedding table and combine operator. -/
theorem claim_C2 (c : Cfg) (a k : Nat) (ha : isTokenId c a = true) :
    forward c [c.paren_open :: a :: List.replicate k c.padding_idx] =
      [c.emb a] := by
  have h1 : a ≠ c.padding_idx := (isTokenId_iff.1 ha).1
  have h2 : a ≠ c.paren_open := (isTokenId_iff.1 ha).2.1
  have htok : tokCount c (c.paren_open :: a :: List.replicate k c.padding_idx) = 1 := by
    have h3 := @tokCount_replicate_pad c k
    unfold tokCount at h3 ⊢
    rw [List.filter_cons, List.filter_cons]
    simp only [isTokenId_open, ha]
    simp [h3]
  have hsh : stackHeight c [c.paren_open :: a :: List.replicate k c.padding_idx] = 2 := by
    unfold stackHeight
    rw [List.map_cons, List.map_nil, htok]
    rfl
  have hml : maxLen [c.paren_open :: a :: List.replicate k c.padding_idx] = k + 2 := by
    unfold maxLen
    rw [List.map_cons, List.map_nil]
    show max 0 (List.replicate k c.padding_idx).length.succ.succ = k + 2
    rw [List.length_replicate]
    omega
  unfold forward forwardStates
  rw [hml, hsh]
  rw [runBatchAux_skip_tail [c.paren_open :: a :: List.replicate k c.padding_idx]
    2 (k + 2) _ (by omega) ?hcols]
  case hcols =>
    intro t ht
    obtain ⟨u, rfl⟩ : ∃ u, t = u + 2 := ⟨t - 2, by omega⟩
    have hcol : colAt c [c.paren_open :: a :: List.replicate k c.padding_idx]
        (u + 2) = [(List.replicate k c.padding_idx).getD u c.padding_idx] := rfl
    rw [hcol, getD_replicate_self]
    simp [doNothingCol, doNothingId]
  have hr2 : List.range 2 = [0, 1] := rfl
  unfold runBatchAux
  rw [hr2, List.foldl_cons, List.foldl_cons, List.foldl_nil]
  have hc0 : colAt c [c.paren_open :: a :: List.replicate k c.padding_idx] 0 =
      [c.paren_open] := rfl
  have hc1 : colAt c [c.paren_open :: a :: List.replicate k c.padding_idx] 1 =
      [a] := rfl
  rw [hc0, hc1]
  rw [if_pos (by simp [doNothingCol, doNothingId] :
    doNothingCol c [c.paren_open] = true)]
  rw [if_neg (by simp [doNothingCol, doNothingId, h1, h2] :
    ¬ doNothingCol c [a] = true)]
  have hbs : batchStep c [a]
      (List.map (fun _ => initState c 2)
        [c.paren_open :: a :: List.replicate k c.padding_idx]) =
      [stepRow c a (initState c 2)] := rfl
  rw [hbs, stepRow_token _ ha]
  rfl

end StackRNN

namespace StackRNN

/-! ### Claim C6: the gated combine computes the specified formula -/

/-- Claim C6: on inputs of even length `2 * hidden_size` with well-shaped
weights, the gated combine splits each input into visible and memory halves,
builds four gates and one candidate from one affine transform of the
concatenated visible halves, forms the new memory half as
`i ⊙ cand + f1 ⊙ l_mem + f2 ⊙ r_mem`, the new visible half as
`o ⊙ th(new memory)`, and returns visible-then-memory. -/
theorem claim_C6 (sg th : ℚ → ℚ) (m : LSTMOp) (left right : Vec)
    (hl : left.length = 2 * m.hidden_size)
    (hr : right.length = 2 * m.hidden_size)
    (hW : m.weight.length = 5 * m.hidden_size)
    (hb : m.bias.length = 5 * m.hidden_size) :
    LSTMOp.fwd sg th m left right = LSTMOp.specCombine sg th m left right := by
  set n := m.hidden_size with hn
  simp only [LSTMOp.fwd, LSTMOp.specCombine, chunk2, chunk4]
  have hl2 : (left.length + 1) / 2 = n := by omega
  have hr2 : (right.length + 1) / 2 = n := by omega
  rw [hl2, hr2]
  set y := linear m.weight m.bias (left.take n ++ right.take n) with hy0
  have hy : y.length = 5 * n := by
    rw [hy0]
    unfold linear
    rw [List.length_zipWith, hW, hb]
    omega
  have hgl : ((y.take (4 * n)).map sg).length = 4 * n := by
    rw [List.length_map, List.length_take, hy]
    omega
  rw [hgl]
  have hc4 : (4 * n + 3) / 4 = n := by omega
  rw [hc4]
  have e1 : ((y.take (4 * n)).map sg).take n = (y.take n).map sg := by
    rw [← List.map_take, List.take_take, min_eq_left (by omega)]
  have e2 : (((y.take (4 * n)).map sg).drop n).take n =
      ((y.drop n).take n).map sg := by
    rw [← List.map_drop, ← List.map_take, List.drop_take]
    rw [show 4 * n - n = 3 * n from by omega, List.take_take,
      min_eq_left (by omega)]
  have e3 : (((y.take (4 * n)).map sg).drop (2 * n)).take n =
      ((y.drop (2 * n)).take n).map sg := by
    rw [← List.map_drop, ← List.map_take, List.drop_take]
    rw [show 4 * n - 2 * n = 2 * n from by omega, List.take_take,
      min_eq_left (by omega)]
  have e4 : (((y.take (4 * n)).map sg).drop (3 * n)).take n =
      ((y.drop (3 * n)).take n).map sg := by
    rw [← List.map_drop, ← List.map_take, List.drop_take]
    rw [show 4 * n - 3 * n = n from by omega, List.take_take,
      min_eq_left (by omega)]
  have e5 : (y.drop (4 * n)).map th = ((y.drop (4 * n)).take n).map th := by
    rw [List.take_of_length_le (by rw [List.length_drop, hy]; omega)]
  rw [e1, e2, e3, e4, e5]

/-! ### Claim C8: both combine policies are pure -/

/-- Claim C8: both policies, in evaluation mode, are pure functions of their
two inputs and their parameters: in any sequence of invocations, two calls
whose input pairs coincide produce the same output, with no state carried
between calls. -/
theorem claim_C8 (sg th : ℚ → ℚ) (mr : RNNOp) (ml : LSTMOp)
    (ps : List (Vec × Vec)) (i j : Nat) (hij : ps[i]? = ps[j]?) :
    (callEach (RNNOp.fwd th mr) ps)[i]? = (callEach (RNNOp.fwd th mr) ps)[j]? ∧
      (callEach (LSTMOp.fwd sg th ml) ps)[i]? =
        (callEach (LSTMOp.fwd sg th ml) ps)[j]? := by
  refine ⟨?_, ?_⟩ <;>
    (unfold callEach; rw [List.getElem?_map, List.getElem?_map, hij])

/-! ### Claim C9: gated policy with odd hidden size fails at construction -/

/-- Claim C9: constructing the encoder with the gated (`LSTMOp`) policy and
an odd hidden size fails at construction time, before any encoding. -/
theorem claim_C9 (sg th : ℚ → ℚ) (H padding_idx paren_open paren_close : Nat)
    (hH : H % 2 = 1) (W : List (List ℚ)) (b : List ℚ) (emb : Nat → Vec) :
    mkRecursive OpKind.lstm sg th H padding_idx paren_open paren_close
      W b emb = none := by
  unfold mkRecursive LSTMOp.mk?
  rw [if_neg (by omega)]
  rfl

end StackRNN

namespace StackRNN

/-! ### Closed witnesses evaluating the claims on concrete inputs -/

theorem claim_C1_witness :
    isTokenId demoCfg 2 = true ∧
      (forward demoCfg [[0, 0, 2, 3, 1, 0, 2, 3, 1, 1]] =
        [demoCfg.op (demoCfg.op (demoCfg.emb 2) (demoCfg.emb 3))
          (demoCfg.op (demoCfg.emb 2) (demoCfg.emb 3))] ∧
      forward demoCfg [[0, 2, 0, 3, 0, 2, 3, 1, 1, 1]] =
        [demoCfg.op (demoCfg.emb 2) (demoCfg.op (demoCfg.emb 3)
          (demoCfg.op (demoCfg.emb 2) (demoCfg.emb 3)))]) :=
  ⟨by decide,
   claim_C1 demoCfg (by decide) (by decide) 2 3 2 3
     (by decide) (by decide) (by decide) (by decide)⟩

theorem claim_C2_witness :
    isTokenId demoCfg 2 = true ∧
      forward demoCfg [[0, 2, 4, 4, 4]] = [demoCfg.emb 2] :=
  ⟨by decide, claim_C2 demoCfg 2 3 (by decide)⟩

theorem claim_C3_witness :
    (∀ s ∈ [[0, 0, 2, 3, 1, 0, 2, 2, 1, 1], [2, 4, 4, 4, 4, 4, 4, 4, 4, 4]],
        WellFormed demoCfg s) ∧
      (forward demoCfg
        [[0, 0, 2, 3, 1, 0, 2, 2, 1, 1], [2, 4, 4, 4, 4, 4, 4, 4, 4, 4]])[0]? =
      (forward demoCfg [[0, 0, 2, 3, 1, 0, 2, 2, 1, 1]])[0]? :=
  ⟨by decide,
   claim_C3 demoCfg (by decide) (by decide)
     [[0, 0, 2, 3, 1, 0, 2, 2, 1, 1], [2, 4, 4, 4, 4, 4, 4, 4, 4, 4]]
     (by decide) 0 (by decide)⟩

theorem claim_C4_witness :
    (∃ x ∈ [0, 0, 2, 3, 1, 0, 2, 2, 1, 1],
        x ≠ demoCfg.padding_idx ∧ x ≠ demoCfg.paren_open) ∧
      ((forwardStates demoCfg
        [[0, 0, 2, 3, 1, 0, 2, 2, 1, 1], [4, 4, 4, 4, 4, 4, 4, 4, 4, 4]])[0]?).map
          SeqState.ptr = some 1 :=
  ⟨by decide,
   claim_C4 demoCfg (by decide) (by decide)
     [[0, 0, 2, 3, 1, 0, 2, 2, 1, 1], [4, 4, 4, 4, 4, 4, 4, 4, 4, 4]]
     (by decide) 0 (by decide) (by decide)⟩

theorem claim_C5_witness :
    stackHeight demoCfg [[0, 0, 2, 3, 1, 0, 2, 2, 1, 1], [2, 4, 4, 4, 4, 4, 4, 4, 4, 4]] =
        1 + ([[0, 0, 2, 3, 1, 0, 2, 2, 1, 1],
          [2, 4, 4, 4, 4, 4, 4, 4, 4, 4]].map (tokCount demoCfg)).foldl max 0 ∧
      ∀ (n b : Nat),
        b < ([[0, 0, 2, 3, 1, 0, 2, 2, 1, 1], [2, 4, 4, 4, 4, 4, 4, 4, 4, 4]] :
          List (List Nat)).length →
        ∀ st : SeqState,
          (runBatchAux demoCfg
            [[0, 0, 2, 3, 1, 0, 2, 2, 1, 1], [2, 4, 4, 4, 4, 4, 4, 4, 4, 4]] n
            ([[0, 0, 2, 3, 1, 0, 2, 2, 1, 1], [2, 4, 4, 4, 4, 4, 4, 4, 4, 4]].map
              (fun _ => initState demoCfg
                (stackHeight demoCfg [[0, 0, 2, 3, 1, 0, 2, 2, 1, 1],
                  [2, 4, 4, 4, 4, 4, 4, 4, 4, 4]]))))[b]? = some st →
          0 ≤ st.ptr ∧
            st.ptr ≤ (stackHeight demoCfg [[0, 0, 2, 3, 1, 0, 2, 2, 1, 1],
              [2, 4, 4, 4, 4, 4, 4, 4, 4, 4]] : Int) :=
  claim_C5 demoCfg (by decide) (by decide)
    [[0, 0, 2, 3, 1, 0, 2, 2, 1, 1], [2, 4, 4, 4, 4, 4, 4, 4, 4, 4]]
    (by decide)

theorem claim_C6_witness :
    ([1, 2] : Vec).length = 2 * (LSTMOp.mk 1 [[1, 0], [0, 1], [1, 1], [0, 0], [1, 0]]
        [0, 0, 0, 0, 0]).hidden_size ∧
      LSTMOp.fwd id id
        ⟨1, [[1, 0], [0, 1], [1, 1], [0, 0], [1, 0]], [0, 0, 0, 0, 0]⟩
        [1, 2] [3, 4] =
      LSTMOp.specCombine id id
        ⟨1, [[1, 0], [0, 1], [1, 1], [0, 0], [1, 0]], [0, 0, 0, 0, 0]⟩
        [1, 2] [3, 4] :=
  ⟨by decide,
   claim_C6 id id ⟨1, [[1, 0], [0, 1], [1, 1], [0, 0], [1, 0]], [0, 0, 0, 0, 0]⟩
     [1, 2] [3, 4] (by decide) (by decide) (by decide) (by decide)⟩

theorem claim_C7_witness :
    stepRow demoCfg 4 ⟨[[0]], 0⟩ = ⟨[[0]], 0⟩ ∧
      forwardNoSkip demoCfg [[0, 2, 4]] = forward demoCfg [[0, 2, 4]] :=
  ⟨(claim_C7 demoCfg (by decide) (by decide)).1 4 ⟨[[0]], 0⟩ (Or.inl rfl),
   (claim_C7 demoCfg (by decide) (by decide)).2 [[0, 2, 4]]⟩

theorem claim_C8_witness :
    ([([1], [2]), ([1], [2])] : List (Vec × Vec))[0]? =
        ([([1], [2]), ([1], [2])] : List (Vec × Vec))[1]? ∧
      (callEach (RNNOp.fwd id ⟨[[1, 1]], [0]⟩) [([1], [2]), ([1], [2])])[0]? =
        (callEach (RNNOp.fwd id ⟨[[1, 1]], [0]⟩) [([1], [2]), ([1], [2])])[1]? ∧
      (callEach (LSTMOp.fwd id id
          ⟨1, [[1, 0], [0, 1], [1, 1], [0, 0], [1, 0]], [0, 0, 0, 0, 0]⟩)
        [([1], [2]), ([1], [2])])[0]? =
      (callEach (LSTMOp.fwd id id
          ⟨1, [[1, 0], [0, 1], [1, 1], [0, 0], [1, 0]], [0, 0, 0, 0, 0]⟩)
        [([1], [2]), ([1], [2])])[1]? :=
  ⟨by decide,
   claim_C8 id id ⟨[[1, 1]], [0]⟩
     ⟨1, [[1, 0], [0, 1], [1, 1], [0, 0], [1, 0]], [0, 0, 0, 0, 0]⟩
     [([1], [2]), ([1], [2])] 0 1 (by decide)⟩

theorem claim_C9_witness :
    3 % 2 = 1 ∧
      mkRecursive OpKind.lstm id id 3 4 0 1 [] [] (fun _ => []) = none :=
  ⟨by decide, claim_C9 id id 3 4 0 1 (by decide) [] [] (fun _ => [])⟩

theorem claim_C10_witness :
    (∀ x ∈ [0, 4, 0], x = demoCfg.padding_idx ∨ x = demoCfg.paren_open) ∧
      (forward demoCfg [[0, 4, 0]])[0]? =
        some (List.replicate demoCfg.hidden_size 0) :=
  ⟨by decide,
   claim_C10 demoCfg (by decide) (by decide) [[0, 4, 0]] 0 (by decide)
     (by decide)⟩

end StackRNN
